import Mathlib

/-!
Verification of the two knapsack solvers of this repository:
the chunked brute-force enumeration of bruteforce.py and the 1-D
dynamic-programming solver of optimized.py.  Costs and budgets are the
Python ints produced by the CSV loader (non-negative in every solve the
spec considers, hence modelled as naturals except where a claim is about
negative inputs), profits are the exact rational values of the products
cost * benefit.
-/

namespace OCR7

/-- An investment option as produced by the CSV loader of both modules:
a name, an integral cost in euros, and a profit (cost times benefit ratio). -/
structure Action where
  name : String
  cost : ℕ
  profit : ℚ
deriving DecidableEq

/-- Total cost of a list of actions. -/
def costOf (S : List Action) : ℕ := (S.map Action.cost).sum

/-- Total profit of a list of actions. -/
def profitOf (S : List Action) : ℚ := (S.map Action.profit).sum

/-- The running state of the mask loop of process_chunk in bruteforce.py:
max_profit, best_combination, best_cost, combinations_processed. -/
@[ext] structure BFState where
  maxProfit : ℚ
  bestCombination : List String
  bestCost : ℕ
  processed : ℕ
deriving DecidableEq

/-- One iteration of the inner j-loop of process_chunk: Python tests
i & (1 << j) and, when the bit is set, appends the j-th action's name and
adds its cost and profit to the accumulators. -/
def maskStep (i : ℕ) (acc : List String × ℕ × ℚ) (p : ℕ × Action) :
    List String × ℕ × ℚ :=
  if i &&& (1 <<< p.1) ≠ 0 then
    (acc.1 ++ [p.2.name], acc.2.1 + p.2.cost, acc.2.2 + p.2.profit)
  else acc

/-- The names, cost and profit accumulated for mask i by the inner j-loop of
process_chunk (current_combination, current_cost, current_profit). -/
def maskEval (actions : List Action) (i : ℕ) : List String × ℕ × ℚ :=
  actions.enum.foldl (maskStep i) ([], 0, 0)

/-- One iteration of the outer mask loop of process_chunk: update the running
best when current_cost <= budget and current_profit > max_profit, then count
the combination as processed. -/
def chunkStep (actions : List Action) (budget : ℕ) (s : BFState) (i : ℕ) :
    BFState :=
  let ev := maskEval actions i
  let s' := if ev.2.1 ≤ budget ∧ ev.2.2 > s.maxProfit then
      { s with maxProfit := ev.2.2, bestCombination := ev.1, bestCost := ev.2.1 }
    else s
  { s' with processed := s'.processed + 1 }

/-- The mask loop of process_chunk folded over an arbitrary list of masks. -/
def chunkFold (actions : List Action) (budget : ℕ) (s : BFState) (l : List ℕ) :
    BFState :=
  l.foldl (chunkStep actions budget) s

/-- The final loop state of process_chunk of bruteforce.py over
range(start, stop). -/
def process_chunkState (actions : List Action) (start stop budget : ℕ) : BFState :=
  chunkFold actions budget ⟨0, [], 0, 0⟩ (List.range' start (stop - start))

/-- process_chunk of bruteforce.py: the returned quadruple
(best_combination, best_cost, max_profit, combinations_processed). -/
def process_chunk (actions : List Action) (start stop budget : ℕ) :
    List String × ℕ × ℚ × ℕ :=
  let final := process_chunkState actions start stop budget
  (final.bestCombination, final.bestCost, final.maxProfit, final.processed)

/-- The chunk boundaries (start, end) computed by async_brute_force_investment:
chunk i covers [i * chunk_size, (i+1) * chunk_size), the last chunk absorbs the
remainder up to 2^n. -/
def chunkBounds (n num_processes : ℕ) : List (ℕ × ℕ) :=
  let total_combinations := 2 ^ n
  let chunk_size := total_combinations / num_processes
  (List.range num_processes).map fun i =>
    (i * chunk_size,
      if i < num_processes - 1 then (i + 1) * chunk_size else total_combinations)

/-- The reduction loop of async_brute_force_investment over one gathered chunk
result (combination, cost, profit, combos): take the triple on a strictly
greater profit, always add the processed count. -/
def reduceStep (acc : BFState) (r : List String × ℕ × ℚ × ℕ) : BFState :=
  let acc' := if r.2.2.1 > acc.maxProfit then
      { acc with maxProfit := r.2.2.1, bestCombination := r.1, bestCost := r.2.1 }
    else acc
  { acc' with processed := acc'.processed + r.2.2.2 }

/-- The loop state of process_chunk repackaged as its returned quadruple. -/
def BFState.toTuple (s : BFState) : List String × ℕ × ℚ × ℕ :=
  (s.bestCombination, s.bestCost, s.maxProfit, s.processed)

/-- The state of async_brute_force_investment after gathering the chunk results
(in chunk order) and reducing them. -/
def asyncState (actions : List Action) (budget num_processes : ℕ) : BFState :=
  ((chunkBounds actions.length num_processes).map fun se =>
      process_chunk actions se.1 se.2 budget).foldl reduceStep ⟨0, [], 0, 0⟩

/-- async_brute_force_investment of bruteforce.py: the returned triple
(best_combination, best_cost, max_profit). -/
def async_brute_force_investment (actions : List Action)
    (budget num_processes : ℕ) : List String × ℕ × ℚ :=
  let st := asyncState actions budget num_processes
  (st.bestCombination, st.bestCost, st.maxProfit)

/-- Pointwise update of an array modelled as a function. -/
def updFn {α : Type} (f : ℕ → α) (i : ℕ) (v : α) : ℕ → α :=
  fun x => if x = i then v else f x

/-- The two arrays dp and included of optimized_investment. -/
structure DPState where
  dp : ℕ → ℚ
  included : ℕ → List String

/-- Body of the inner w-loop of optimized_investment: profit_with =
dp[w - cost] + profit; on a strict improvement update dp[w] and
included[w] = included[w - cost] + [name]. -/
def dpInner (cost : ℕ) (profit : ℚ) (name : String) (st : DPState) (w : ℕ) :
    DPState :=
  let profit_with := st.dp (w - cost) + profit
  if profit_with > st.dp w then
    { dp := updFn st.dp w profit_with,
      included := updFn st.included w (st.included (w - cost) ++ [name]) }
  else st

/-- Python's range(budget, cost - 1, -1): the indices budget, budget - 1, ...,
cost, in that order. -/
def descRange (cost budget : ℕ) : List ℕ :=
  (List.range' cost (budget + 1 - cost)).reverse

/-- Processing one action in optimized_investment: run the inner w-loop from
budget down to the action's cost. -/
def dpPass (budget : ℕ) (st : DPState) (a : Action) : DPState :=
  (descRange a.cost budget).foldl (dpInner a.cost a.profit a.name) st

/-- The dp and included arrays of optimized_investment after every action has
been processed. -/
def dpFinal (actions : List Action) (budget : ℕ) : DPState :=
  actions.foldl (dpPass budget) ⟨fun _ => 0, fun _ => []⟩

/-- optimized_investment of optimized.py: selected names are included[budget],
the reported cost re-sums the costs of catalog entries whose name is a member
of the selection, the reported profit is dp[budget]. -/
def optimized_investment (actions : List Action) (budget : ℕ) :
    List String × ℕ × ℚ :=
  let st := dpFinal actions budget
  let selected_names := st.included budget
  let total_cost :=
    ((actions.filter fun a => decide (a.name ∈ selected_names)).map Action.cost).sum
  let total_profit := st.dp budget
  (selected_names, total_cost, total_profit)

/-- The sublist of actions selected by mask i: bit k of i (counting from the
position k of the action in the list) selects the k-th action. -/
def selFrom (i : ℕ) : ℕ → List Action → List Action
  | _, [] => []
  | k, a :: rest =>
      if i.testBit k then a :: selFrom i (k + 1) rest else selFrom i (k + 1) rest

/-- The sublist of actions selected by mask i. -/
def selOf (actions : List Action) (i : ℕ) : List Action := selFrom i 0 actions

/-- Invariant of the DP arrays: each cell w holds the profit and the names of
an actual sublist of the processed prefix whose cost fits in w. -/
def dpInv (budget : ℕ) (st : DPState) (L : List Action) : Prop :=
  ∀ w ≤ budget, ∃ S, List.Sublist S L ∧ costOf S ≤ w ∧
    profitOf S = st.dp w ∧ st.included w = S.map Action.name

/-- chunkStep with the budget at Python's signed integer type: process_chunk
compares current_cost <= budget on plain ints, so a negative budget is accepted
and simply makes every nonempty combination infeasible. -/
def chunkStepIntBudget (actions : List Action) (budget : ℤ) (s : BFState)
    (i : ℕ) : BFState :=
  let ev := maskEval actions i
  let s' := if (ev.2.1 : ℤ) ≤ budget ∧ ev.2.2 > s.maxProfit then
      { s with maxProfit := ev.2.2, bestCombination := ev.1, bestCost := ev.2.1 }
    else s
  { s' with processed := s'.processed + 1 }

/-- process_chunk of bruteforce.py with an arbitrary (possibly negative)
integer budget, as Python's dynamic typing admits. -/
def process_chunkIntBudget (actions : List Action) (start stop : ℕ)
    (budget : ℤ) : List String × ℕ × ℚ × ℕ :=
  let final :=
    (List.range' start (stop - start)).foldl (chunkStepIntBudget actions budget)
      ⟨0, [], 0, 0⟩
  (final.bestCombination, final.bestCost, final.maxProfit, final.processed)

/-! ### Basic facts about the mask selection -/

lemma costOf_nil : costOf [] = 0 := rfl

lemma profitOf_nil : profitOf [] = 0 := rfl

lemma costOf_cons (a : Action) (S : List Action) :
    costOf (a :: S) = a.cost + costOf S := by
  simp [costOf]

lemma profitOf_cons (a : Action) (S : List Action) :
    profitOf (a :: S) = a.profit + profitOf S := by
  simp [profitOf]

lemma costOf_append (S T : List Action) :
    costOf (S ++ T) = costOf S + costOf T := by
  simp [costOf]

lemma profitOf_append (S T : List Action) :
    profitOf (S ++ T) = profitOf S + profitOf T := by
  simp [profitOf]

lemma selFrom_sublist (i : ℕ) (l : List Action) :
    ∀ k, List.Sublist (selFrom i k l) l := by
  induction l with
  | nil => intro k; simp [selFrom]
  | cons a rest ih =>
    intro k
    by_cases h : i.testBit k
    · simpa [selFrom, h] using List.Sublist.cons₂ a (ih (k + 1))
    · simpa [selFrom, h] using List.Sublist.cons a (ih (k + 1))

lemma selOf_sublist (actions : List Action) (i : ℕ) :
    List.Sublist (selOf actions i) actions :=
  selFrom_sublist i actions 0

lemma selFrom_shift (i : ℕ) (l : List Action) :
    ∀ k, selFrom i (k + 1) l = selFrom (i / 2) k l := by
  induction l with
  | nil => intro k; rfl
  | cons a rest ih =>
    intro k
    rw [selFrom, selFrom, Nat.testBit_add_one, ih (k + 1)]

/-- Structural recursion for the mask selection: bit 0 selects the head. -/
lemma selOf_cons (a : Action) (rest : List Action) (i : ℕ) :
    selOf (a :: rest) i =
      if i % 2 = 1 then a :: selOf rest (i / 2) else selOf rest (i / 2) := by
  unfold selOf
  rw [selFrom, Nat.testBit_zero]
  have h1 := selFrom_shift i rest 0
  simp only [Nat.zero_add] at h1
  rw [h1]
  by_cases h : i % 2 = 1 <;> simp [h]

lemma selOf_zero (l : List Action) : selOf l 0 = [] := by
  induction l with
  | nil => rfl
  | cons a rest ih => rw [selOf_cons]; simp [ih]

/-- Every sublist of the catalog is picked out by some mask below 2 ^ N. -/
lemma selOf_exists (l : List Action) :
    ∀ S, List.Sublist S l → ∃ i < 2 ^ l.length, selOf l i = S := by
  induction l with
  | nil =>
    intro S h
    rw [List.sublist_nil] at h
    exact ⟨0, by simp, by rw [h]; rfl⟩
  | cons a rest ih =>
    intro S h
    rcases List.sublist_cons_iff.mp h with h' | ⟨S', rfl, h'⟩
    · obtain ⟨i, hi, hsel⟩ := ih _ h'
      refine ⟨2 * i, ?_, ?_⟩
      · have : (a :: rest).length = rest.length + 1 := rfl
        rw [this, pow_succ]
        omega
      · rw [selOf_cons]
        have h2 : (2 * i) % 2 = 0 := by omega
        have h3 : (2 * i) / 2 = i := by omega
        simp [h2, h3, hsel]
    · obtain ⟨i, hi, hsel⟩ := ih _ h'
      refine ⟨2 * i + 1, ?_, ?_⟩
      · have : (a :: rest).length = rest.length + 1 := rfl
        rw [this, pow_succ]
        omega
      · rw [selOf_cons]
        have h2 : (2 * i + 1) % 2 = 1 := by omega
        have h3 : (2 * i + 1) / 2 = i := by omega
        simp [h2, h3, hsel]

/-- Bit test as written in the source: i & (1 << k) is nonzero exactly when
bit k of i is set. -/
lemma and_shift_ne_zero (i k : ℕ) : (i &&& (1 <<< k) ≠ 0) ↔ i.testBit k := by
  rw [Nat.one_shiftLeft, Nat.and_two_pow]
  have h2 : (2 : ℕ) ^ k ≠ 0 := Nat.ne_of_gt (Nat.pos_pow_of_pos k (by omega))
  cases h : i.testBit k <;> simp [h, h2]

/-- The inner j-loop of process_chunk accumulates exactly the names, total
cost and total profit of the mask-selected sublist. -/
lemma maskEval_go (i : ℕ) (l : List Action) :
    ∀ (k : ℕ) (ns : List String) (c : ℕ) (q : ℚ),
      (l.enumFrom k).foldl (maskStep i) (ns, c, q) =
        (ns ++ (selFrom i k l).map Action.name,
          c + costOf (selFrom i k l), q + profitOf (selFrom i k l)) := by
  induction l with
  | nil => intro k ns c q; simp [selFrom, costOf, profitOf, List.enumFrom]
  | cons a rest ih =>
    intro k ns c q
    show ((k, a) :: rest.enumFrom (k + 1)).foldl (maskStep i) (ns, c, q) = _
    rw [List.foldl_cons]
    by_cases h : i.testBit k
    · have hstep : maskStep i (ns, c, q) (k, a) =
          (ns ++ [a.name], c + a.cost, q + a.profit) := by
        simp [maskStep, (and_shift_ne_zero i k).mpr h]
      rw [hstep, ih (k + 1)]
      simp [selFrom, h, costOf_cons, profitOf_cons]
      constructor
      · omega
      · ring
    · have hstep : maskStep i (ns, c, q) (k, a) = (ns, c, q) := by
        have : ¬ (i &&& (1 <<< k) ≠ 0) := fun hc => h ((and_shift_ne_zero i k).mp hc)
        simp [maskStep, this]
      rw [hstep, ih (k + 1)]
      simp [selFrom, h]

/-- The inner loop of process_chunk computes the data of the selected sublist. -/
lemma maskEval_eq (actions : List Action) (i : ℕ) :
    maskEval actions i =
      ((selOf actions i).map Action.name, costOf (selOf actions i),
        profitOf (selOf actions i)) := by
  have h := maskEval_go i actions 0 [] 0 0
  simpa [maskEval, List.enum, selOf] using h

/-! ### The mask loop of process_chunk -/

lemma chunkStep_processed (actions : List Action) (budget : ℕ) (s : BFState)
    (i : ℕ) : (chunkStep actions budget s i).processed = s.processed + 1 := by
  simp only [chunkStep]
  split <;> rfl

lemma chunkStep_maxProfit_le (actions : List Action) (budget : ℕ) (s : BFState)
    (i : ℕ) : s.maxProfit ≤ (chunkStep actions budget s i).maxProfit := by
  simp only [chunkStep]
  split
  · rename_i h
    exact le_of_lt h.2
  · exact le_refl _

lemma chunkFold_cons (actions : List Action) (budget : ℕ) (s : BFState)
    (x : ℕ) (xs : List ℕ) :
    chunkFold actions budget s (x :: xs) =
      chunkFold actions budget (chunkStep actions budget s x) xs := rfl

lemma chunkFold_append (actions : List Action) (budget : ℕ) (s : BFState)
    (l l' : List ℕ) :
    chunkFold actions budget s (l ++ l') =
      chunkFold actions budget (chunkFold actions budget s l) l' :=
  List.foldl_append _ _ _ _

lemma chunkFold_processed (actions : List Action) (budget : ℕ) (l : List ℕ) :
    ∀ s : BFState,
      (chunkFold actions budget s l).processed = s.processed + l.length := by
  induction l with
  | nil => intro s; simp [chunkFold]
  | cons x xs ih =>
    intro s
    rw [chunkFold_cons, ih, chunkStep_processed]
    simp [List.length_cons]
    omega

lemma chunkFold_maxProfit_le (actions : List Action) (budget : ℕ) (l : List ℕ) :
    ∀ s : BFState, s.maxProfit ≤ (chunkFold actions budget s l).maxProfit := by
  induction l with
  | nil => intro s; exact le_refl _
  | cons x xs ih =>
    intro s
    rw [chunkFold_cons]
    exact le_trans (chunkStep_maxProfit_le actions budget s x) (ih _)

/-! ### Reducing chunk results commutes with continuing the mask loop -/

/-- Folding one more mask into a chunk and then reducing is the same as
reducing first and folding the mask into the reduced state. -/
lemma reduce_chunkStep_comm (actions : List Action) (budget : ℕ)
    (σ τ : BFState) (i : ℕ) :
    reduceStep σ (chunkStep actions budget τ i).toTuple =
      chunkStep actions budget (reduceStep σ τ.toTuple) i := by
  by_cases hc : (maskEval actions i).2.1 ≤ budget
  · by_cases hpt : (maskEval actions i).2.2 > τ.maxProfit
    · by_cases hB : τ.maxProfit > σ.maxProfit
      · have hps : (maskEval actions i).2.2 > σ.maxProfit := lt_trans hB hpt
        simp [reduceStep, chunkStep, BFState.toTuple, hc, hpt, hB, hps]
        omega
      · by_cases hps : (maskEval actions i).2.2 > σ.maxProfit
        · simp [reduceStep, chunkStep, BFState.toTuple, hc, hpt, hB, hps]
          omega
        · simp [reduceStep, chunkStep, BFState.toTuple, hc, hpt, hB, hps]
          omega
    · have hB' : ¬ (maskEval actions i).2.2 > σ.maxProfit ∨ τ.maxProfit > σ.maxProfit := by
        by_cases hB : τ.maxProfit > σ.maxProfit
        · exact Or.inr hB
        · exact Or.inl (fun hps => hpt (lt_of_le_of_lt (le_of_not_lt hB) hps))
      by_cases hB : τ.maxProfit > σ.maxProfit
      · simp [reduceStep, chunkStep, BFState.toTuple, hc, hpt, hB]
        omega
      · have hps : ¬ (maskEval actions i).2.2 > σ.maxProfit := by
          rcases hB' with h | h
          · exact h
          · exact absurd h hB
        simp [reduceStep, chunkStep, BFState.toTuple, hc, hpt, hB, hps]
        omega
  · by_cases hB : τ.maxProfit > σ.maxProfit <;>
      simp [reduceStep, chunkStep, BFState.toTuple, hc, hB] <;> omega

lemma reduce_chunkFold_comm (actions : List Action) (budget : ℕ) (σ : BFState)
    (l : List ℕ) : ∀ τ : BFState,
    reduceStep σ (chunkFold actions budget τ l).toTuple =
      chunkFold actions budget (reduceStep σ τ.toTuple) l := by
  induction l with
  | nil => intro τ; rfl
  | cons x xs ih =>
    intro τ
    rw [chunkFold_cons, ih (chunkStep actions budget τ x),
      reduce_chunkStep_comm, chunkFold_cons]

lemma reduceStep_zeroChunk (σ : BFState) (h : 0 ≤ σ.maxProfit) :
    reduceStep σ (BFState.toTuple ⟨0, [], 0, 0⟩) = σ := by
  have h' : ¬ ((0 : ℚ) > σ.maxProfit) := not_lt.mpr h
  simp [reduceStep, BFState.toTuple, h']

/-- Reducing a whole chunk result into an accumulator with a non-negative
running best is the same as continuing the mask loop over the chunk's range
from that accumulator. -/
lemma reduce_process_chunk (actions : List Action) (budget start stop : ℕ)
    (σ : BFState) (h : 0 ≤ σ.maxProfit) :
    reduceStep σ (process_chunk actions start stop budget) =
      chunkFold actions budget σ (List.range' start (stop - start)) := by
  have h1 : process_chunk actions start stop budget =
      (process_chunkState actions start stop budget).toTuple := rfl
  rw [h1, process_chunkState, reduce_chunkFold_comm, reduceStep_zeroChunk σ h]

/-- Reducing the gathered chunk results in order equals one mask loop over the
concatenation of the chunk ranges. -/
lemma foldl_reduce_map (actions : List Action) (budget : ℕ)
    (bs : List (ℕ × ℕ)) : ∀ σ : BFState, 0 ≤ σ.maxProfit →
    (bs.map fun se => process_chunk actions se.1 se.2 budget).foldl reduceStep σ =
      chunkFold actions budget σ
        ((bs.map fun se => List.range' se.1 (se.2 - se.1)).flatten) := by
  induction bs with
  | nil => intro σ _; rfl
  | cons b rest ih =>
    intro σ h
    rw [List.map_cons, List.foldl_cons, reduce_process_chunk actions budget b.1 b.2 σ h,
      List.map_cons, List.flatten_cons, chunkFold_append]
    exact ih _ (le_trans h (chunkFold_maxProfit_le actions budget _ σ))

/-! ### The chunk decomposition covers the mask range exactly -/

/-- The first j regular chunks cover the first j * chunk_size masks. -/
lemma chunkRanges_flatten_aux (n K : ℕ) (j : ℕ) (hj : j ≤ K - 1) :
    ((List.range j).map fun i =>
        List.range' (i * (2 ^ n / K))
          ((if i < K - 1 then (i + 1) * (2 ^ n / K) else 2 ^ n) -
            i * (2 ^ n / K))).flatten =
      List.range' 0 (j * (2 ^ n / K)) := by
  induction j with
  | zero => simp
  | succ j ih =>
    have hj' : j ≤ K - 1 := by omega
    have hlt : j < K - 1 := by omega
    rw [List.range_succ, List.map_append, List.flatten_append, ih hj']
    have h1 : (j + 1) * (2 ^ n / K) - j * (2 ^ n / K) = 2 ^ n / K := by
      generalize 2 ^ n / K = cs
      have h : (j + 1) * cs = j * cs + cs := by ring
      omega
    simp only [List.map_cons, List.map_nil, hlt, if_pos, List.flatten_cons,
      List.flatten_nil, List.append_nil, h1]
    have h2 := List.range'_append_1 0 (j * (2 ^ n / K)) (2 ^ n / K)
    have h3 : 2 ^ n / K + j * (2 ^ n / K) = (j + 1) * (2 ^ n / K) := by
      generalize 2 ^ n / K = cs
      have h : (j + 1) * cs = j * cs + cs := by ring
      omega
    rw [Nat.zero_add] at h2
    rw [h2, h3]

/-- The chunk ranges of async_brute_force_investment concatenate, in order and
without gaps or duplicates, to the whole mask range [0, 2 ^ n). -/
lemma chunkRanges_flatten (n K : ℕ) (hK : 1 ≤ K) :
    ((chunkBounds n K).map fun se => List.range' se.1 (se.2 - se.1)).flatten =
      List.range' 0 (2 ^ n) := by
  obtain ⟨K', rfl⟩ : ∃ K', K = K' + 1 := ⟨K - 1, by omega⟩
  rw [chunkBounds]
  simp only [List.map_map]
  have hcomp : ((fun se : ℕ × ℕ => List.range' se.1 (se.2 - se.1)) ∘ fun i =>
      (i * (2 ^ n / (K' + 1)),
        if i < K' + 1 - 1 then (i + 1) * (2 ^ n / (K' + 1)) else 2 ^ n)) =
      fun i => List.range' (i * (2 ^ n / (K' + 1)))
        ((if i < K' + 1 - 1 then (i + 1) * (2 ^ n / (K' + 1)) else 2 ^ n) -
          i * (2 ^ n / (K' + 1))) := rfl
  rw [hcomp, List.range_succ, List.map_append, List.flatten_append,
    chunkRanges_flatten_aux n (K' + 1) K' (by omega)]
  have hK' : ¬ (K' < K' + 1 - 1) := by omega
  simp only [List.map_cons, List.map_nil, hK', if_neg, List.flatten_cons,
    List.flatten_nil, List.append_nil, if_false]
  have hle : K' * (2 ^ n / (K' + 1)) ≤ 2 ^ n :=
    calc K' * (2 ^ n / (K' + 1)) ≤ (K' + 1) * (2 ^ n / (K' + 1)) :=
          Nat.mul_le_mul_right _ (by omega)
      _ ≤ 2 ^ n := by
          rw [Nat.mul_comm]
          exact Nat.div_mul_le_self (2 ^ n) (K' + 1)
  have h2 := List.range'_append_1 0 (K' * (2 ^ n / (K' + 1)))
    (2 ^ n - K' * (2 ^ n / (K' + 1)))
  rw [Nat.zero_add] at h2
  rw [h2]
  congr 1
  omega

/-- The reduction state of async_brute_force_investment equals the state of a
single process_chunk over the full mask range. -/
lemma asyncState_eq (actions : List Action) (budget K : ℕ) (hK : 1 ≤ K) :
    asyncState actions budget K =
      process_chunkState actions 0 (2 ^ actions.length) budget := by
  rw [asyncState, foldl_reduce_map actions budget _ ⟨0, [], 0, 0⟩ (le_refl 0),
    chunkRanges_flatten actions.length K hK, process_chunkState, Nat.sub_zero]

/-! ### The mask loop keeps the first best feasible mask -/

/-- One mask-loop iteration, rewritten through the selected sublist. -/
lemma chunkStep_eq (actions : List Action) (budget : ℕ) (σ : BFState) (i : ℕ) :
    chunkStep actions budget σ i =
      if costOf (selOf actions i) ≤ budget ∧
          profitOf (selOf actions i) > σ.maxProfit then
        ⟨profitOf (selOf actions i), (selOf actions i).map Action.name,
          costOf (selOf actions i), σ.processed + 1⟩
      else ⟨σ.maxProfit, σ.bestCombination, σ.bestCost, σ.processed + 1⟩ := by
  simp only [chunkStep, maskEval_eq]
  split <;> rfl

/-- After the mask loop has run over [0, m), the state holds the data of the
first feasible mask attaining the maximal feasible profit. -/
lemma pcState_spec (actions : List Action) (budget : ℕ) :
    ∀ m : ℕ, 1 ≤ m →
    ∃ i < m,
      (chunkFold actions budget ⟨0, [], 0, 0⟩ (List.range' 0 m)).maxProfit
          = profitOf (selOf actions i)
      ∧ (chunkFold actions budget ⟨0, [], 0, 0⟩ (List.range' 0 m)).bestCombination
          = (selOf actions i).map Action.name
      ∧ (chunkFold actions budget ⟨0, [], 0, 0⟩ (List.range' 0 m)).bestCost
          = costOf (selOf actions i)
      ∧ costOf (selOf actions i) ≤ budget
      ∧ (∀ j < m, costOf (selOf actions j) ≤ budget →
          profitOf (selOf actions j) ≤ profitOf (selOf actions i))
      ∧ (∀ j < i, costOf (selOf actions j) ≤ budget →
          profitOf (selOf actions j) < profitOf (selOf actions i)) := by
  intro m
  induction m with
  | zero => intro h; omega
  | succ m ih =>
    intro _
    by_cases hm : m = 0
    · subst hm
      refine ⟨0, by omega, ?_⟩
      have h0 : List.range' 0 1 = [0] := rfl
      have h1 : chunkFold actions budget ⟨0, [], 0, 0⟩ [0] =
          chunkStep actions budget ⟨0, [], 0, 0⟩ 0 := rfl
      rw [h0, h1, chunkStep_eq]
      have hsel : selOf actions 0 = [] := selOf_zero actions
      have hcond : ¬ (costOf (selOf actions 0) ≤ budget ∧
          profitOf (selOf actions 0) > (0 : ℚ)) := by
        rw [hsel, profitOf_nil]
        intro hc
        exact lt_irrefl 0 hc.2
      rw [if_neg hcond]
      refine ⟨?_, ?_, ?_, ?_, ?_, ?_⟩
      · rw [hsel, profitOf_nil]
      · rw [hsel]; rfl
      · rw [hsel, costOf_nil]
      · rw [hsel, costOf_nil]; omega
      · intro j hj _
        have : j = 0 := by omega
        rw [this]
      · intro j hj
        omega
    · have hm1 : 1 ≤ m := by omega
      obtain ⟨i, hi, hmax, hcomb, hcost, hfeas, hglob, hfirst⟩ := ih hm1
      have hsplit : List.range' 0 (m + 1) = List.range' 0 m ++ [m] := by
        have := List.range'_1_concat 0 m
        simpa using this
      rw [hsplit, chunkFold_append]
      have hstep : ∀ σ : BFState, chunkFold actions budget σ [m] =
          chunkStep actions budget σ m := fun σ => rfl
      rw [hstep, chunkStep_eq]
      by_cases hupd : costOf (selOf actions m) ≤ budget ∧
          profitOf (selOf actions m) >
            (chunkFold actions budget ⟨0, [], 0, 0⟩ (List.range' 0 m)).maxProfit
      · rw [if_pos hupd]
        have hlt : profitOf (selOf actions i) < profitOf (selOf actions m) := by
          rw [← hmax]; exact hupd.2
        refine ⟨m, by omega, rfl, rfl, rfl, hupd.1, ?_, ?_⟩
        · intro j hj hjf
          by_cases hjm : j = m
          · rw [hjm]
          · have : j < m := by omega
            exact le_of_lt (lt_of_le_of_lt (hglob j this hjf) hlt)
        · intro j hj hjf
          exact lt_of_le_of_lt (hglob j hj hjf) hlt
      · rw [if_neg hupd]
        refine ⟨i, by omega, hmax, hcomb, hcost, hfeas, ?_, hfirst⟩
        intro j hj hjf
        by_cases hjm : j = m
        · subst hjm
          have := not_and.mp hupd hjf
          rw [← hmax]
          exact not_lt.mp this
        · exact hglob j (by omega) hjf

/-! ### The descending inner loop of the DP solver -/

lemma mem_descRange (c b x : ℕ) : x ∈ descRange c b ↔ c ≤ x ∧ x ≤ b := by
  rw [descRange, List.mem_reverse, List.mem_range'_1]
  omega

lemma descRange_pairwise (c b : ℕ) : (descRange c b).Pairwise (· > ·) := by
  rw [descRange, List.pairwise_reverse]
  exact List.pairwise_lt_range' c (b + 1 - c)

lemma dpInner_untouched (c : ℕ) (p : ℚ) (nm : String) (st : DPState) (w y : ℕ)
    (hy : y ≠ w) :
    (dpInner c p nm st w).dp y = st.dp y ∧
      (dpInner c p nm st w).included y = st.included y := by
  simp only [dpInner]
  split
  · constructor <;> simp [updFn, hy]
  · exact ⟨rfl, rfl⟩

/-- The descending in-place inner loop acts pointwise: because the loop visits
indices in strictly decreasing order, every read dp[x - cost] (and every read
included[x - cost]) still sees the pre-pass array. -/
lemma foldl_dpInner_apply (c : ℕ) (p : ℚ) (nm : String) (ws : List ℕ) :
    ∀ st : DPState, ws.Pairwise (· > ·) → ∀ x : ℕ,
      (ws.foldl (dpInner c p nm) st).dp x =
        (if x ∈ ws ∧ st.dp (x - c) + p > st.dp x then st.dp (x - c) + p
         else st.dp x)
      ∧ (ws.foldl (dpInner c p nm) st).included x =
        (if x ∈ ws ∧ st.dp (x - c) + p > st.dp x then
          st.included (x - c) ++ [nm]
         else st.included x) := by
  induction ws with
  | nil =>
    intro st _ x
    constructor <;> simp
  | cons w rest ih =>
    intro st hpw x
    rw [List.pairwise_cons] at hpw
    obtain ⟨hw, hrest⟩ := hpw
    rw [List.foldl_cons]
    obtain ⟨ihdp, ihinc⟩ := ih (dpInner c p nm st w) hrest x
    by_cases hx : x ∈ rest
    · have hxw : x < w := hw x hx
      have hda := (dpInner_untouched c p nm st w x (by omega)).1
      have hia := (dpInner_untouched c p nm st w x (by omega)).2
      have hdb := (dpInner_untouched c p nm st w (x - c) (by omega)).1
      have hib := (dpInner_untouched c p nm st w (x - c) (by omega)).2
      rw [ihdp, ihinc, hda, hdb, hia, hib]
      constructor
      · by_cases hc : st.dp (x - c) + p > st.dp x
        · rw [if_pos ⟨hx, hc⟩, if_pos ⟨List.mem_cons_of_mem w hx, hc⟩]
        · rw [if_neg fun h => hc h.2, if_neg fun h => hc h.2]
      · by_cases hc : st.dp (x - c) + p > st.dp x
        · rw [if_pos ⟨hx, hc⟩, if_pos ⟨List.mem_cons_of_mem w hx, hc⟩]
        · rw [if_neg fun h => hc h.2, if_neg fun h => hc h.2]
    · have hnr : ∀ q : Prop, ¬ (x ∈ rest ∧ q) := fun q h => hx h.1
      rw [ihdp, ihinc, if_neg (hnr _), if_neg (hnr _)]
      by_cases hxw : x = w
      · subst hxw
        simp only [dpInner]
        split
        · rename_i hcond
          constructor
          · rw [if_pos ⟨List.mem_cons_self x rest, hcond⟩]
            simp [updFn]
          · rw [if_pos ⟨List.mem_cons_self x rest, hcond⟩]
            simp [updFn]
        · rename_i hcond
          constructor
          · rw [if_neg fun h => hcond h.2]
          · rw [if_neg fun h => hcond h.2]
      · have hnx : ¬ (x ∈ w :: rest ∧ st.dp (x - c) + p > st.dp x) := by
          intro h
          rcases List.mem_cons.mp h.1 with h' | h'
          · exact hxw h'
          · exact hx h'
        have hda := (dpInner_untouched c p nm st w x hxw).1
        have hia := (dpInner_untouched c p nm st w x hxw).2
        rw [hda, hia, if_neg hnx, if_neg hnx]
        exact ⟨rfl, rfl⟩

/-- The pass of one action over the dp array, described pointwise. -/
lemma dpPass_apply (budget : ℕ) (st : DPState) (a : Action) (x : ℕ) :
    (dpPass budget st a).dp x =
      (if (a.cost ≤ x ∧ x ≤ budget) ∧ st.dp (x - a.cost) + a.profit > st.dp x
       then st.dp (x - a.cost) + a.profit else st.dp x)
    ∧ (dpPass budget st a).included x =
      (if (a.cost ≤ x ∧ x ≤ budget) ∧ st.dp (x - a.cost) + a.profit > st.dp x
       then st.included (x - a.cost) ++ [a.name] else st.included x) := by
  have h := foldl_dpInner_apply a.cost a.profit a.name (descRange a.cost budget)
    st (descRange_pairwise a.cost budget) x
  rw [dpPass]
  rcases h with ⟨h1, h2⟩
  rw [h1, h2]
  by_cases hmem : x ∈ descRange a.cost budget
  · have hx := (mem_descRange a.cost budget x).mp hmem
    by_cases hc : st.dp (x - a.cost) + a.profit > st.dp x
    · rw [if_pos ⟨hmem, hc⟩, if_pos ⟨hx, hc⟩, if_pos ⟨hmem, hc⟩, if_pos ⟨hx, hc⟩]
      exact ⟨rfl, rfl⟩
    · rw [if_neg fun h => hc h.2, if_neg fun h => hc h.2,
        if_neg fun h => hc h.2, if_neg fun h => hc h.2]
      exact ⟨rfl, rfl⟩
  · have hx : ¬ (a.cost ≤ x ∧ x ≤ budget) := fun h =>
      hmem ((mem_descRange a.cost budget x).mpr h)
    rw [if_neg fun h => hmem h.1, if_neg fun h => hx h.1,
      if_neg fun h => hmem h.1, if_neg fun h => hx h.1]
    exact ⟨rfl, rfl⟩

lemma dpPass_dp_le (budget : ℕ) (st : DPState) (a : Action) (x : ℕ) :
    st.dp x ≤ (dpPass budget st a).dp x := by
  rw [(dpPass_apply budget st a x).1]
  split
  · rename_i h
    exact le_of_lt h.2
  · exact le_refl _

lemma dpPass_take (budget : ℕ) (st : DPState) (a : Action) (x : ℕ)
    (h1 : a.cost ≤ x) (h2 : x ≤ budget) :
    st.dp (x - a.cost) + a.profit ≤ (dpPass budget st a).dp x := by
  rw [(dpPass_apply budget st a x).1]
  by_cases hc : st.dp (x - a.cost) + a.profit > st.dp x
  · rw [if_pos ⟨⟨h1, h2⟩, hc⟩]
  · rw [if_neg fun h => hc h.2]
    exact not_lt.mp hc

/-! ### Soundness: every DP cell is witnessed by a feasible sublist -/

lemma dpInv_init (budget : ℕ) :
    dpInv budget ⟨fun _ => 0, fun _ => []⟩ [] := by
  intro w _
  exact ⟨[], List.Sublist.refl [], by rw [costOf_nil]; omega,
    by rw [profitOf_nil], rfl⟩

lemma dpInv_pass (budget : ℕ) (st : DPState) (L : List Action) (a : Action)
    (h : dpInv budget st L) : dpInv budget (dpPass budget st a) (L ++ [a]) := by
  intro w hw
  obtain ⟨hdp, hinc⟩ := dpPass_apply budget st a w
  by_cases hcond : (a.cost ≤ w ∧ w ≤ budget) ∧
      st.dp (w - a.cost) + a.profit > st.dp w
  · obtain ⟨S₁, hS₁, hc₁, hp₁, hi₁⟩ := h (w - a.cost) (by omega)
    refine ⟨S₁ ++ [a], List.Sublist.append hS₁ (List.Sublist.refl [a]), ?_, ?_, ?_⟩
    · rw [costOf_append, costOf_cons, costOf_nil]
      have := hcond.1.1
      omega
    · rw [profitOf_append, profitOf_cons, profitOf_nil, hdp, if_pos hcond, hp₁]
      ring
    · rw [hinc, if_pos hcond, hi₁, List.map_append]
      rfl
  · obtain ⟨S₀, hS₀, hc₀, hp₀, hi₀⟩ := h w hw
    refine ⟨S₀, hS₀.trans (List.sublist_append_left L [a]), hc₀, ?_, ?_⟩
    · rw [hdp, if_neg hcond, hp₀]
    · rw [hinc, if_neg hcond, hi₀]

lemma dpInv_fold (budget : ℕ) (M : List Action) :
    ∀ (L : List Action) (st : DPState), dpInv budget st L →
      dpInv budget (M.foldl (dpPass budget) st) (L ++ M) := by
  induction M with
  | nil =>
    intro L st h
    simpa using h
  | cons a M' ih =>
    intro L st h
    rw [List.foldl_cons, List.append_cons]
    exact ih (L ++ [a]) (dpPass budget st a) (dpInv_pass budget st L a h)

/-- The final DP arrays are witnessed: dp[w] is the profit of a feasible
sublist of the catalog whose names are included[w]. -/
lemma dpInv_final (actions : List Action) (budget : ℕ) :
    dpInv budget (dpFinal actions budget) actions := by
  have h := dpInv_fold budget actions [] ⟨fun _ => 0, fun _ => []⟩
    (dpInv_init budget)
  simpa [dpFinal] using h

/-! ### Completeness: the DP dominates every feasible sublist -/

lemma dpFold_ge (budget : ℕ) (L : List Action) :
    ∀ (st : DPState) (S : List Action), List.Sublist S L → ∀ w ≤ budget,
      costOf S ≤ w →
      st.dp (w - costOf S) + profitOf S ≤ (L.foldl (dpPass budget) st).dp w := by
  induction L with
  | nil =>
    intro st S hS w hw hc
    rw [List.sublist_nil] at hS
    subst hS
    rw [costOf_nil, profitOf_nil, List.foldl_nil, Nat.sub_zero, add_zero]
  | cons a rest ih =>
    intro st S hS w hw hc
    rw [List.foldl_cons]
    rcases List.sublist_cons_iff.mp hS with h' | ⟨S', rfl, h'⟩
    · calc st.dp (w - costOf S) + profitOf S
          ≤ (dpPass budget st a).dp (w - costOf S) + profitOf S :=
            add_le_add_right (dpPass_dp_le budget st a (w - costOf S)) _
        _ ≤ _ := ih (dpPass budget st a) S h' w hw hc
    · rw [costOf_cons] at hc
      have h1 : a.cost ≤ w - costOf S' := by omega
      have h2 : w - costOf S' ≤ budget := by omega
      have h3 := dpPass_take budget st a (w - costOf S') h1 h2
      have h4 : w - costOf S' - a.cost = w - costOf (a :: S') := by
        rw [costOf_cons]
        omega
      have h5 := ih (dpPass budget st a) S' h' w hw (by omega)
      calc st.dp (w - costOf (a :: S')) + profitOf (a :: S')
          = (st.dp (w - costOf S' - a.cost) + a.profit) + profitOf S' := by
            rw [h4, profitOf_cons]
            ring
        _ ≤ (dpPass budget st a).dp (w - costOf S') + profitOf S' :=
            add_le_add_right h3 _
        _ ≤ _ := h5

/-- dp[w] dominates the profit of every sublist of the catalog whose cost
fits in w (for w within the array). -/
lemma dpFinal_ge (actions : List Action) (budget : ℕ) (S : List Action)
    (hS : List.Sublist S actions) (w : ℕ) (hw : w ≤ budget)
    (hc : costOf S ≤ w) :
    profitOf S ≤ (dpFinal actions budget).dp w := by
  have h := dpFold_ge budget actions ⟨fun _ => 0, fun _ => []⟩ S hS w hw hc
  rw [dpFinal]
  calc profitOf S = 0 + profitOf S := by ring
    _ ≤ _ := h

/-! ### Remaining helper lemmas -/

lemma process_chunkState_full (actions : List Action) (budget m : ℕ) :
    process_chunkState actions 0 m budget =
      chunkFold actions budget ⟨0, [], 0, 0⟩ (List.range' 0 m) := by
  rw [process_chunkState, Nat.sub_zero]

/-- Projections of optimized_investment. -/
lemma optimized_investment_eq (actions : List Action) (budget : ℕ) :
    optimized_investment actions budget =
      ((dpFinal actions budget).included budget,
        ((actions.filter fun a =>
            decide (a.name ∈ (dpFinal actions budget).included budget)).map
          Action.cost).sum,
        (dpFinal actions budget).dp budget) := rfl

/-- With pairwise distinct names, re-summing catalog costs over membership in
the names of a sublist recovers exactly that sublist. -/
lemma filter_mem_names (L : List Action) :
    ∀ S, List.Sublist S L → (L.map Action.name).Nodup →
      L.filter (fun a => decide (a.name ∈ S.map Action.name)) = S := by
  induction L with
  | nil =>
    intro S hS _
    rw [List.sublist_nil] at hS
    subst hS
    rfl
  | cons a rest ih =>
    intro S hS hnd
    rw [List.map_cons, List.nodup_cons] at hnd
    obtain ⟨hna, hnd'⟩ := hnd
    rcases List.sublist_cons_iff.mp hS with h' | ⟨S', rfl, h'⟩
    · have hsub : List.Sublist (S.map Action.name) (rest.map Action.name) :=
        h'.map Action.name
      have hnot : a.name ∉ S.map Action.name := fun hmem => hna (hsub.subset hmem)
      rw [List.filter_cons, decide_eq_false hnot, if_neg (by simp)]
      exact ih S h' hnd'
    · have hmem : a.name ∈ (a :: S').map Action.name := by
        rw [List.map_cons]
        exact List.mem_cons_self a.name (S'.map Action.name)
      rw [List.filter_cons, decide_eq_true hmem, if_pos rfl]
      have hcongr : ∀ b ∈ rest,
          decide (b.name ∈ (a :: S').map Action.name) =
            decide (b.name ∈ S'.map Action.name) := by
        intro b hb
        have hbn : b.name ≠ a.name := by
          intro he
          exact hna (he ▸ List.mem_map_of_mem Action.name hb)
        rw [List.map_cons]
        cases hd : decide (b.name ∈ S'.map Action.name)
        · have : b.name ∉ S'.map Action.name := of_decide_eq_false hd
          have : b.name ∉ a.name :: S'.map Action.name := by
            intro hm
            rcases List.mem_cons.mp hm with hm | hm
            · exact hbn hm
            · exact this hm
          simp [this]
        · have : b.name ∈ S'.map Action.name := of_decide_eq_true hd
          simp [List.mem_cons.mpr (Or.inr this), this]
      rw [List.filter_congr hcongr, ih S' h' hnd']

/-- A nonempty sublist of a catalog of positive-cost options costs at least 1. -/
lemma costOf_pos_of_ne_nil (actions : List Action)
    (hpos : ∀ a ∈ actions, 1 ≤ a.cost) (S : List Action)
    (hS : List.Sublist S actions) (hne : S ≠ []) : 1 ≤ costOf S := by
  cases S with
  | nil => exact absurd rfl hne
  | cons b S' =>
    rw [costOf_cons]
    have hb : b ∈ actions := hS.subset (List.mem_cons_self b S')
    have := hpos b hb
    omega

/-- With a zero budget and strictly positive costs, the mask loop never
updates its running best. -/
lemma chunkFold_zero_budget (actions : List Action)
    (hpos : ∀ a ∈ actions, 1 ≤ a.cost) (l : List ℕ) :
    ∀ p : ℕ, chunkFold actions 0 ⟨0, [], 0, p⟩ l = ⟨0, [], 0, p + l.length⟩ := by
  induction l with
  | nil => intro p; simp [chunkFold]
  | cons x xs ih =>
    intro p
    rw [chunkFold_cons, chunkStep_eq]
    have hcond : ¬ (costOf (selOf actions x) ≤ 0 ∧
        profitOf (selOf actions x) > (0 : ℚ)) := by
      intro hc
      by_cases hnil : selOf actions x = []
      · rw [hnil, profitOf_nil] at hc
        exact lt_irrefl 0 hc.2
      · have := costOf_pos_of_ne_nil actions hpos (selOf actions x)
          (selOf_sublist actions x) hnil
        omega
    rw [if_neg hcond]
    have := ih (p + 1)
    rw [this]
    congr 1
    simp [List.length_cons]
    omega

/-- With a zero budget and strictly positive costs, every dp pass is empty:
Python's range(0, cost - 1, -1) is empty for cost >= 1. -/
lemma dpFinal_zero_budget (actions : List Action)
    (hpos : ∀ a ∈ actions, 1 ≤ a.cost) :
    dpFinal actions 0 = ⟨fun _ => 0, fun _ => []⟩ := by
  rw [dpFinal]
  induction actions with
  | nil => rfl
  | cons a rest ih =>
    rw [List.foldl_cons]
    have hpa : 1 ≤ a.cost := hpos a (List.mem_cons_self a rest)
    have hempty : descRange a.cost 0 = [] := by
      rw [descRange]
      have : 0 + 1 - a.cost = 0 := by omega
      rw [this]
      rfl
    have hpass : dpPass 0 ⟨fun _ => 0, fun _ => []⟩ a = ⟨fun _ => 0, fun _ => []⟩ := by
      rw [dpPass, hempty]
      rfl
    rw [hpass]
    exact ih fun b hb => hpos b (List.mem_cons_of_mem a hb)

/-- With a negative integer budget, process_chunk silently runs through every
mask without ever updating its best, and returns the empty solution. -/
lemma process_chunkIntBudget_foldl (actions : List Action) (budget : ℤ)
    (h : budget < 0) (l : List ℕ) :
    ∀ p : ℕ, l.foldl (chunkStepIntBudget actions budget) ⟨0, [], 0, p⟩ =
      ⟨0, [], 0, p + l.length⟩ := by
  induction l with
  | nil => intro p; simp
  | cons x xs ih =>
    intro p
    rw [List.foldl_cons]
    have hcond : ¬ (((maskEval actions x).2.1 : ℤ) ≤ budget ∧
        (maskEval actions x).2.2 > (0 : ℚ)) := by
      intro hc
      have h0 : (0 : ℤ) ≤ ((maskEval actions x).2.1 : ℤ) := Int.natCast_nonneg _
      omega
    have hstep : chunkStepIntBudget actions budget ⟨0, [], 0, p⟩ x =
        ⟨0, [], 0, p + 1⟩ := by
      simp only [chunkStepIntBudget]
      rw [if_neg hcond]
    rw [hstep, ih (p + 1)]
    congr 1
    simp [List.length_cons]
    omega

/-! ### Claim theorems -/

/-- Claim C1: for every list of options (integer costs, rational profits) and
every integer budget, the total profit returned by the DP solver
optimized_investment equals the total profit returned by the brute-force
solver (process_chunk over the full mask range [0, 2 ^ N)). -/
theorem claim1_dp_profit_equals_bruteforce (actions : List Action)
    (budget : ℕ) :
    (optimized_investment actions budget).2.2 =
      (process_chunk actions 0 (2 ^ actions.length) budget).2.2.1 := by
  obtain ⟨i, hi, hmax, _, _, hfeas, hglob, _⟩ :=
    pcState_spec actions budget (2 ^ actions.length) Nat.one_le_two_pow
  obtain ⟨S, hS, hcS, hpS, _⟩ := dpInv_final actions budget budget (le_refl _)
  have hrhs : (process_chunk actions 0 (2 ^ actions.length) budget).2.2.1 =
      (chunkFold actions budget ⟨0, [], 0, 0⟩
        (List.range' 0 (2 ^ actions.length))).maxProfit := by
    have e : (process_chunk actions 0 (2 ^ actions.length) budget).2.2.1 =
        (process_chunkState actions 0 (2 ^ actions.length) budget).maxProfit := rfl
    rw [e, process_chunkState_full]
  have hlhs : (optimized_investment actions budget).2.2 =
      (dpFinal actions budget).dp budget := rfl
  rw [hlhs, hrhs, hmax]
  apply le_antisymm
  · rw [← hpS]
    obtain ⟨j, hj, hsel⟩ := selOf_exists actions S hS
    rw [← hsel]
    exact hglob j hj (by rw [hsel]; exact hcS)
  · exact dpFinal_ge actions budget (selOf actions i) (selOf_sublist actions i)
      budget (le_refl _) hfeas

/-- Claim C2: for every catalog and budget, the (chunked) brute-force solver
returns a feasible sublist of maximal total profit: its returned names, cost
and profit are those of an actual feasible sublist, and no sublist of the
catalog with cost within the budget has a strictly greater profit. -/
theorem claim2_bruteforce_optimal (actions : List Action) (budget K : ℕ)
    (hK : 1 ≤ K) :
    (∃ S, List.Sublist S actions ∧
        (async_brute_force_investment actions budget K).1 = S.map Action.name ∧
        (async_brute_force_investment actions budget K).2.1 = costOf S ∧
        costOf S ≤ budget ∧
        (async_brute_force_investment actions budget K).2.2 = profitOf S) ∧
    ∀ S, List.Sublist S actions → costOf S ≤ budget →
      profitOf S ≤ (async_brute_force_investment actions budget K).2.2 := by
  have hasync : asyncState actions budget K =
      chunkFold actions budget ⟨0, [], 0, 0⟩
        (List.range' 0 (2 ^ actions.length)) := by
    rw [asyncState_eq actions budget K hK, process_chunkState_full]
  obtain ⟨i, hi, hmax, hcomb, hcost, hfeas, hglob, _⟩ :=
    pcState_spec actions budget (2 ^ actions.length) Nat.one_le_two_pow
  have e1 : (async_brute_force_investment actions budget K).1 =
      (asyncState actions budget K).bestCombination := rfl
  have e2 : (async_brute_force_investment actions budget K).2.1 =
      (asyncState actions budget K).bestCost := rfl
  have e3 : (async_brute_force_investment actions budget K).2.2 =
      (asyncState actions budget K).maxProfit := rfl
  constructor
  · exact ⟨selOf actions i, selOf_sublist actions i,
      by rw [e1, hasync, hcomb], by rw [e2, hasync, hcost], hfeas,
      by rw [e3, hasync, hmax]⟩
  · intro S hS hc
    obtain ⟨j, hj, hsel⟩ := selOf_exists actions S hS
    rw [e3, hasync, hmax, ← hsel]
    exact hglob j hj (by rw [hsel]; exact hc)

/-- Claim C3: every solve is feasible: the total cost returned by the chunked
brute-force solver (budget a natural number) and by the DP solver (distinct
option names) is at most the budget. -/
theorem claim3_feasibility (actions : List Action) (budget K : ℕ)
    (hK : 1 ≤ K) (hnames : (actions.map Action.name).Nodup) :
    (async_brute_force_investment actions budget K).2.1 ≤ budget ∧
    (optimized_investment actions budget).2.1 ≤ budget := by
  constructor
  · have hasync : asyncState actions budget K =
        chunkFold actions budget ⟨0, [], 0, 0⟩
          (List.range' 0 (2 ^ actions.length)) := by
      rw [asyncState_eq actions budget K hK, process_chunkState_full]
    obtain ⟨i, hi, _, _, hcost, hfeas, _, _⟩ :=
      pcState_spec actions budget (2 ^ actions.length) Nat.one_le_two_pow
    have e2 : (async_brute_force_investment actions budget K).2.1 =
        (asyncState actions budget K).bestCost := rfl
    rw [e2, hasync, hcost]
    exact hfeas
  · obtain ⟨S, hS, hc, _, hi⟩ := dpInv_final actions budget budget (le_refl _)
    have e : (optimized_investment actions budget).2.1 =
        ((actions.filter fun a =>
            decide (a.name ∈ (dpFinal actions budget).included budget)).map
          Action.cost).sum := rfl
    have e2 : (fun a : Action =>
        decide (a.name ∈ (dpFinal actions budget).included budget)) =
        fun a : Action => decide (a.name ∈ S.map Action.name) := by
      funext a
      rw [hi]
    rw [e, e2, filter_mem_names actions S hS hnames]
    exact hc

/-- Claim C4: for every catalog and chunk count K at least 1, the chunk ranges
cover [0, 2 ^ N) in order with no gaps and no duplicates, the combinations
processed across all chunks sum to exactly 2 ^ N, and the post-solve count
async_brute_force_investment asserts on equals 2 ^ N, so the assertion never
fails. -/
theorem claim4_chunks_exhaustive (actions : List Action) (budget K : ℕ)
    (hK : 1 ≤ K) :
    ((chunkBounds actions.length K).map fun se =>
        List.range' se.1 (se.2 - se.1)).flatten =
      List.range' 0 (2 ^ actions.length) ∧
    ((chunkBounds actions.length K).map fun se =>
        (process_chunk actions se.1 se.2 budget).2.2.2).sum =
      2 ^ actions.length ∧
    (asyncState actions budget K).processed = 2 ^ actions.length := by
  refine ⟨chunkRanges_flatten actions.length K hK, ?_, ?_⟩
  · have h1 : ∀ se : ℕ × ℕ, (process_chunk actions se.1 se.2 budget).2.2.2 =
        se.2 - se.1 := by
      intro se
      have e : (process_chunk actions se.1 se.2 budget).2.2.2 =
          (process_chunkState actions se.1 se.2 budget).processed := rfl
      rw [e, process_chunkState, chunkFold_processed]
      simp [List.length_range']
    calc ((chunkBounds actions.length K).map fun se =>
            (process_chunk actions se.1 se.2 budget).2.2.2).sum
        = ((chunkBounds actions.length K).map fun se => se.2 - se.1).sum := by
          simp only [h1]
      _ = (((chunkBounds actions.length K).map fun se =>
            List.range' se.1 (se.2 - se.1)).map List.length).sum := by
          rw [List.map_map]
          congr 1
          apply List.map_congr_left
          intro se _
          simp [Function.comp, List.length_range']
      _ = (((chunkBounds actions.length K).map fun se =>
            List.range' se.1 (se.2 - se.1)).flatten).length :=
          (List.length_flatten _).symm
      _ = (List.range' 0 (2 ^ actions.length)).length := by
          rw [chunkRanges_flatten actions.length K hK]
      _ = 2 ^ actions.length := by simp [List.length_range']
  · rw [asyncState_eq actions budget K hK, process_chunkState_full,
      chunkFold_processed]
    simp [List.length_range']

/-- Claim C7: increasing the budget never decreases the optimal profit
returned by the DP solver, and the final dp array is non-decreasing in the
budget index w. -/
theorem claim7_monotone (actions : List Action) (B1 B2 : ℕ) (hB : B1 ≤ B2)
    (budget w1 w2 : ℕ) (h1 : w1 ≤ w2) (h2 : w2 ≤ budget) :
    (optimized_investment actions B1).2.2 ≤
      (optimized_investment actions B2).2.2 ∧
    (dpFinal actions budget).dp w1 ≤ (dpFinal actions budget).dp w2 := by
  constructor
  · obtain ⟨S, hS, hc, hp, _⟩ := dpInv_final actions B1 B1 (le_refl _)
    have e1 : (optimized_investment actions B1).2.2 =
        (dpFinal actions B1).dp B1 := rfl
    have e2 : (optimized_investment actions B2).2.2 =
        (dpFinal actions B2).dp B2 := rfl
    rw [e1, e2, ← hp]
    exact dpFinal_ge actions B2 S hS B2 (le_refl _) (by omega)
  · obtain ⟨S, hS, hc, hp, _⟩ := dpInv_final actions budget w1 (by omega)
    rw [← hp]
    exact dpFinal_ge actions budget S hS w2 h2 (by omega)

/-- Claim C8: the brute-force solver over the full mask range returns the data
of the first feasible mask (in increasing mask order) attaining the maximal
feasible profit: the running best is updated only on a strictly greater
profit, so every feasible mask before the returned one has strictly smaller
profit, and no feasible mask beats it. -/
theorem claim8_first_tie_wins (actions : List Action) (budget : ℕ) :
    ∃ i < 2 ^ actions.length,
      (process_chunk actions 0 (2 ^ actions.length) budget).1 =
        (selOf actions i).map Action.name ∧
      (process_chunk actions 0 (2 ^ actions.length) budget).2.1 =
        costOf (selOf actions i) ∧
      (process_chunk actions 0 (2 ^ actions.length) budget).2.2.1 =
        profitOf (selOf actions i) ∧
      costOf (selOf actions i) ≤ budget ∧
      (∀ j < 2 ^ actions.length, costOf (selOf actions j) ≤ budget →
        profitOf (selOf actions j) ≤ profitOf (selOf actions i)) ∧
      (∀ j < i, costOf (selOf actions j) ≤ budget →
        profitOf (selOf actions j) < profitOf (selOf actions i)) := by
  obtain ⟨i, hi, hmax, hcomb, hcost, hfeas, hglob, hfirst⟩ :=
    pcState_spec actions budget (2 ^ actions.length) Nat.one_le_two_pow
  refine ⟨i, hi, ?_, ?_, ?_, hfeas, hglob, hfirst⟩
  · have e : (process_chunk actions 0 (2 ^ actions.length) budget).1 =
        (process_chunkState actions 0 (2 ^ actions.length) budget).bestCombination := rfl
    rw [e, process_chunkState_full]
    exact hcomb
  · have e : (process_chunk actions 0 (2 ^ actions.length) budget).2.1 =
        (process_chunkState actions 0 (2 ^ actions.length) budget).bestCost := rfl
    rw [e, process_chunkState_full]
    exact hcost
  · have e : (process_chunk actions 0 (2 ^ actions.length) budget).2.2.1 =
        (process_chunkState actions 0 (2 ^ actions.length) budget).maxProfit := rfl
    rw [e, process_chunkState_full]
    exact hmax

/-- Claim C9: the returned triple of async_brute_force_investment does not
depend on the number of chunks: any two chunk counts at least 1 give the
identical (combination, cost, profit). -/
theorem claim9_chunk_count_independent (actions : List Action)
    (budget K1 K2 : ℕ) (h1 : 1 ≤ K1) (h2 : 1 ≤ K2) :
    async_brute_force_investment actions budget K1 =
      async_brute_force_investment actions budget K2 := by
  have e : ∀ K, async_brute_force_investment actions budget K =
      ((asyncState actions budget K).bestCombination,
        (asyncState actions budget K).bestCost,
        (asyncState actions budget K).maxProfit) := fun K => rfl
  rw [e K1, e K2, asyncState_eq actions budget K1 h1,
    asyncState_eq actions budget K2 h2]

/-- Claim C10: with pairwise distinct option names, the total cost reported by
optimized_investment — obtained by re-summing the costs of catalog entries
whose name is a member of the returned selection — equals the cost of the
sublist the DP actually selected (whose names and profit are also the ones
returned). -/
theorem claim10_recomputed_cost_consistent (actions : List Action)
    (budget : ℕ) (hnames : (actions.map Action.name).Nodup) :
    ∃ S, List.Sublist S actions ∧
      (optimized_investment actions budget).1 = S.map Action.name ∧
      (optimized_investment actions budget).2.1 = costOf S ∧
      costOf S ≤ budget ∧
      profitOf S = (optimized_investment actions budget).2.2 := by
  obtain ⟨S, hS, hc, hp, hi⟩ := dpInv_final actions budget budget (le_refl _)
  refine ⟨S, hS, hi, ?_, hc, hp⟩
  have e : (optimized_investment actions budget).2.1 =
      ((actions.filter fun a =>
          decide (a.name ∈ (dpFinal actions budget).included budget)).map
        Action.cost).sum := rfl
  have e2 : (fun a : Action =>
      decide (a.name ∈ (dpFinal actions budget).included budget)) =
      fun a : Action => decide (a.name ∈ S.map Action.name) := by
    funext a
    rw [hi]
  rw [e, e2, filter_mem_names actions S hS hnames]
  rfl

/-- Claim C5 counterexample: with the negative budget -1, process_chunk is not
rejected at the boundary and surfaces no error: it runs the full solve over
both masks of a one-option catalog (the processed count is 2 = 2 ^ 1) and
returns the empty solution as an ordinary result. -/
theorem claim5_counterexample :
    process_chunkIntBudget [Action.mk "A" 1 1] 0 2 (-1) = ([], 0, 0, 2) := by
  have h := process_chunkIntBudget_foldl [Action.mk "A" 1 1] (-1) (by decide)
    (List.range' 0 2) 0
  have e : process_chunkIntBudget [Action.mk "A" 1 1] 0 2 (-1) =
      (((List.range' 0 2).foldl
          (chunkStepIntBudget [Action.mk "A" 1 1] (-1)) ⟨0, [], 0, 0⟩).bestCombination,
        ((List.range' 0 2).foldl
          (chunkStepIntBudget [Action.mk "A" 1 1] (-1)) ⟨0, [], 0, 0⟩).bestCost,
        ((List.range' 0 2).foldl
          (chunkStepIntBudget [Action.mk "A" 1 1] (-1)) ⟨0, [], 0, 0⟩).maxProfit,
        ((List.range' 0 2).foldl
          (chunkStepIntBudget [Action.mk "A" 1 1] (-1)) ⟨0, [], 0, 0⟩).processed) := rfl
  rw [e, h]
  simp [List.length_range']

/-- Claim C5 amended: neither solver validates its inputs at the boundary.
With a negative budget the brute-force solver is not rejected and surfaces no
error: it runs through every mask of its range without ever updating the
running best and returns the empty subset, zero cost and zero profit as an
ordinary result (the DP solver likewise performs no boundary check; in Python
it instead dies with an IndexError on its arrays). -/
theorem claim5_no_boundary_rejection (actions : List Action)
    (start stop : ℕ) (budget : ℤ) (h : budget < 0) :
    process_chunkIntBudget actions start stop budget =
      ([], 0, 0, stop - start) := by
  have h1 := process_chunkIntBudget_foldl actions budget h
    (List.range' start (stop - start)) 0
  have e : process_chunkIntBudget actions start stop budget =
      (((List.range' start (stop - start)).foldl
          (chunkStepIntBudget actions budget) ⟨0, [], 0, 0⟩).bestCombination,
        ((List.range' start (stop - start)).foldl
          (chunkStepIntBudget actions budget) ⟨0, [], 0, 0⟩).bestCost,
        ((List.range' start (stop - start)).foldl
          (chunkStepIntBudget actions budget) ⟨0, [], 0, 0⟩).maxProfit,
        ((List.range' start (stop - start)).foldl
          (chunkStepIntBudget actions budget) ⟨0, [], 0, 0⟩).processed) := rfl
  rw [e, h1]
  simp [List.length_range']

/-- Claim C5 witness for the amended statement, at a concrete negative budget. -/
theorem claim5_no_boundary_rejection_witness :
    process_chunkIntBudget [Action.mk "B" 2 1] 0 2 (-5) = ([], 0, 0, 2 - 0) :=
  claim5_no_boundary_rejection [Action.mk "B" 2 1] 0 2 (-5) (by decide)

/-- Claim C6 counterexample: a budget of 0 does not always yield the empty
subset: on the catalog with the single zero-cost, profit-1 option "A", the DP
solver returns the selection ["A"] with cost 0 and profit 1, not the empty
subset with profit 0. -/
theorem claim6_counterexample :
    optimized_investment [Action.mk "A" 0 1] 0 = (["A"], 0, 1) ∧
    optimized_investment [Action.mk "A" 0 1] 0 ≠ (([] : List String), 0, 0) := by
  have h : optimized_investment [Action.mk "A" 0 1] 0 = (["A"], 0, 1) := by
    have hd : descRange 0 0 = [0] := rfl
    have hpass : dpFinal [Action.mk "A" 0 1] 0 =
        dpInner 0 1 "A" ⟨fun _ => 0, fun _ => []⟩ 0 := by
      rw [dpFinal, List.foldl_cons, List.foldl_nil, dpPass, hd, List.foldl_cons,
        List.foldl_nil]
    have hinner : dpInner 0 1 "A" ⟨fun _ => 0, fun _ => []⟩ 0 =
        ⟨updFn (fun _ => 0) 0 1, updFn (fun _ => []) 0 ["A"]⟩ := by
      rw [dpInner]
      simp
    rw [optimized_investment_eq, hpass, hinner]
    simp [updFn]
  refine ⟨h, ?_⟩
  rw [h]
  intro hc
  have h2 := congrArg (fun t : List String × ℕ × ℚ => t.1) hc
  simp at h2

/-- Claim C6 amended: an empty catalog yields the empty subset, cost 0 and
profit 0 from both solvers for every budget; a budget of 0 yields the same
provided every option has cost at least 1 (a zero-cost option with positive
profit is otherwise selected even at budget 0). -/
theorem claim6_empty_or_zero_budget (actions : List Action) (budget K : ℕ)
    (hK : 1 ≤ K) (hpos : ∀ a ∈ actions, 1 ≤ a.cost) :
    async_brute_force_investment [] budget K = ([], 0, 0) ∧
    optimized_investment [] budget = ([], 0, 0) ∧
    async_brute_force_investment actions 0 K = ([], 0, 0) ∧
    optimized_investment actions 0 = ([], 0, 0) := by
  refine ⟨?_, rfl, ?_, ?_⟩
  · have e : async_brute_force_investment [] budget K =
        ((asyncState [] budget K).bestCombination,
          (asyncState [] budget K).bestCost,
          (asyncState [] budget K).maxProfit) := rfl
    have h2 : process_chunkState [] 0 (2 ^ (List.length ([] : List Action)))
        budget = ⟨0, [], 0, 1⟩ := by
      rw [process_chunkState_full]
      have hpow : (2 : ℕ) ^ (List.length ([] : List Action)) = 1 := rfl
      have h0 : List.range' 0 1 = [0] := rfl
      have h1 : chunkFold [] budget ⟨0, [], 0, 0⟩ [0] =
          chunkStep [] budget ⟨0, [], 0, 0⟩ 0 := rfl
      have hsel : selOf [] 0 = [] := rfl
      rw [hpow, h0, h1, chunkStep_eq, hsel, costOf_nil, profitOf_nil]
      simp
    rw [e, asyncState_eq [] budget K hK, h2]
  · have e : async_brute_force_investment actions 0 K =
        ((asyncState actions 0 K).bestCombination,
          (asyncState actions 0 K).bestCost,
          (asyncState actions 0 K).maxProfit) := rfl
    rw [e, asyncState_eq actions 0 K hK, process_chunkState_full,
      chunkFold_zero_budget actions hpos (List.range' 0 (2 ^ actions.length)) 0]
  · rw [optimized_investment_eq, dpFinal_zero_budget actions hpos]
    have hfilter : (actions.filter fun a =>
        decide (a.name ∈ ([] : List String))) = [] := by
      apply List.filter_eq_nil_iff.mpr
      intro a _
      simp
    simp only [hfilter]
    rfl

/-- Claim C6 witness for the amended statement: a positive-cost catalog and a
chunk count of 2. -/
theorem claim6_empty_or_zero_budget_witness :
    async_brute_force_investment [] 7 2 = ([], 0, 0) ∧
    optimized_investment [] 7 = ([], 0, 0) ∧
    async_brute_force_investment [Action.mk "A" 1 1] 0 2 = ([], 0, 0) ∧
    optimized_investment [Action.mk "A" 1 1] 0 = ([], 0, 0) :=
  claim6_empty_or_zero_budget [Action.mk "A" 1 1] 7 2 (by decide) (by decide)

/-! ### Witnesses at concrete inputs -/

/-- Claim C2 witness at a concrete one-option catalog, budget 5, one chunk. -/
theorem claim2_bruteforce_optimal_witness :
    (∃ S, List.Sublist S [Action.mk "A" 1 1] ∧
        (async_brute_force_investment [Action.mk "A" 1 1] 5 1).1 =
          S.map Action.name ∧
        (async_brute_force_investment [Action.mk "A" 1 1] 5 1).2.1 = costOf S ∧
        costOf S ≤ 5 ∧
        (async_brute_force_investment [Action.mk "A" 1 1] 5 1).2.2 =
          profitOf S) ∧
    ∀ S, List.Sublist S [Action.mk "A" 1 1] → costOf S ≤ 5 →
      profitOf S ≤ (async_brute_force_investment [Action.mk "A" 1 1] 5 1).2.2 :=
  claim2_bruteforce_optimal [Action.mk "A" 1 1] 5 1 (by decide)

/-- Claim C3 witness at a concrete catalog and budget. -/
theorem claim3_feasibility_witness :
    (async_brute_force_investment [Action.mk "A" 1 1] 5 1).2.1 ≤ 5 ∧
    (optimized_investment [Action.mk "A" 1 1] 5).2.1 ≤ 5 :=
  claim3_feasibility [Action.mk "A" 1 1] 5 1 (by decide) (by decide)

/-- Claim C4 witness: one option, two chunks. -/
theorem claim4_chunks_exhaustive_witness :
    ((chunkBounds (List.length [Action.mk "A" 1 1]) 2).map fun se =>
        List.range' se.1 (se.2 - se.1)).flatten =
      List.range' 0 (2 ^ List.length [Action.mk "A" 1 1]) ∧
    ((chunkBounds (List.length [Action.mk "A" 1 1]) 2).map fun se =>
        (process_chunk [Action.mk "A" 1 1] se.1 se.2 5).2.2.2).sum =
      2 ^ List.length [Action.mk "A" 1 1] ∧
    (asyncState [Action.mk "A" 1 1] 5 2).processed =
      2 ^ List.length [Action.mk "A" 1 1] :=
  claim4_chunks_exhaustive [Action.mk "A" 1 1] 5 2 (by decide)

/-- Claim C7 witness: budgets 2 and 3, dp indices 1 and 4 within budget 5. -/
theorem claim7_monotone_witness :
    (optimized_investment [Action.mk "A" 1 1] 2).2.2 ≤
      (optimized_investment [Action.mk "A" 1 1] 3).2.2 ∧
    (dpFinal [Action.mk "A" 1 1] 5).dp 1 ≤ (dpFinal [Action.mk "A" 1 1] 5).dp 4 :=
  claim7_monotone [Action.mk "A" 1 1] 2 3 (by decide) 5 1 4 (by decide) (by decide)

/-- Claim C9 witness: chunk counts 1 and 3 give the identical result. -/
theorem claim9_chunk_count_independent_witness :
    async_brute_force_investment [Action.mk "A" 1 1] 5 1 =
      async_brute_force_investment [Action.mk "A" 1 1] 5 3 :=
  claim9_chunk_count_independent [Action.mk "A" 1 1] 5 1 3 (by decide) (by decide)

/-- Claim C10 witness at a concrete catalog with distinct names. -/
theorem claim10_recomputed_cost_consistent_witness :
    ∃ S, List.Sublist S [Action.mk "A" 1 1] ∧
      (optimized_investment [Action.mk "A" 1 1] 5).1 = S.map Action.name ∧
      (optimized_investment [Action.mk "A" 1 1] 5).2.1 = costOf S ∧
      costOf S ≤ 5 ∧
      profitOf S = (optimized_investment [Action.mk "A" 1 1] 5).2.2 :=
  claim10_recomputed_cost_consistent [Action.mk "A" 1 1] 5 (by decide)

end OCR7
